import Mathlib

/-!
Verification development for the `slinky` symbolic-link tool.

The Rust sources are embedded shallowly:
* `tidy_path` (src/lib.rs, duplicated inline in src/main.rs `run_foreach` and
  src/bin/slinky.rs `main`) becomes a fold over parsed path components.
  A path is modelled the way `std::path::Path::components()` yields it on
  Unix: an optional leading `RootDir` (the `absolute` flag) followed by
  `Normal`, `CurDir` and `ParentDir` components.
* The per-entry walk drivers of src/main.rs (`run_foreach`) and
  src/bin/slinky.rs (`main`) become step functions from a classified link
  entry to a (mutation, report) pair, plus a run function modelling the
  `for entry in walker` loop with its `fs::read_link(path)?` abort.
* `create_hard_link_tree` / `create_symlink_tree` (src/lib.rs) become a
  fold over the WalkDir enumeration of the source tree, acting on a
  destination filesystem modelled as an association list from relative
  paths to entry kinds.
-/

/-- One parsed path component, as produced by Rust's
`std::path::Path::components()` on Unix (the `Prefix` and `RootDir`
variants are factored out into `RPath.absolute`). -/
inductive Comp
  | normal (s : String)
  | curDir
  | parentDir
deriving DecidableEq, Repr

/-- A parsed path: whether it began with a `RootDir` component, and the
remaining components in order. -/
structure RPath where
  absolute : Bool
  comps : List Comp
deriving DecidableEq, Repr

/-- One iteration of the component loop of `tidy_path` (src/lib.rs:24-41):
`Normal` is pushed; `CurDir` is dropped; `ParentDir` pops a trailing
`Normal`, is pushed when the accumulator is empty (relative paths only:
for an absolute path the accumulated `PathBuf` still holds the root, so
`as_os_str().is_empty()` is false and `components().next_back()` is
`RootDir`) or ends in `ParentDir`, and is a no-op at the root.  The
accumulator holds the components after the optional root. -/
def tidyStep (absolute : Bool) (acc : List Comp) : Comp → List Comp
  | .normal s => acc ++ [.normal s]
  | .curDir => acc
  | .parentDir =>
    match acc.getLast? with
    | some (.normal _) => acc.dropLast
    | some .parentDir => acc ++ [.parentDir]
    | some .curDir => acc
    | none => if absolute then acc else acc ++ [.parentDir]

/-- The path normalizer `tidy_path` (src/lib.rs:10-43): preserve the root,
then fold `tidyStep` over the remaining components. -/
def tidy_path (p : RPath) : RPath :=
  ⟨p.absolute, p.comps.foldl (tidyStep p.absolute) []⟩

/-- Whether a component is a `Normal` component. -/
def Comp.isNormal : Comp → Bool
  | .normal _ => true
  | _ => false

/-- Whether a component is a `ParentDir` component. -/
def Comp.isParent : Comp → Bool
  | .parentDir => true
  | _ => false

/-- Whether a component is a `CurDir` component. -/
def Comp.isCur : Comp → Bool
  | .curDir => true
  | _ => false

/-- Tidy normal form for a component list: no `CurDir`, and all
`ParentDir` components form one leading run before the first `Normal`. -/
def isTidyList : List Comp → Bool
  | [] => true
  | .normal _ :: rest => rest.all Comp.isNormal
  | .parentDir :: rest => isTidyList rest
  | .curDir :: _ => false

theorem all_dropLast {α : Type} {p : α → Bool} {l : List α} (h : l.all p = true) :
    l.dropLast.all p = true := by
  rw [List.all_eq_true] at *
  exact fun x hx => h x ((List.dropLast_sublist l).subset hx)

theorem mem_of_getLast?_eq {α : Type} : ∀ {l : List α} {c : α}, l.getLast? = some c → c ∈ l := by
  intro l
  induction l with
  | nil => intro c h; simp at h
  | cons a rest ih =>
    intro c h
    cases rest with
    | nil => simp at h; simp [h]
    | cons b t =>
      rw [List.getLast?_cons_cons] at h
      exact List.mem_cons_of_mem a (ih h)

theorem isTidyList_of_allNormal {l : List Comp} (h : l.all Comp.isNormal = true) :
    isTidyList l = true := by
  cases l with
  | nil => rfl
  | cons c rest =>
    rw [List.all_cons, Bool.and_eq_true] at h
    cases c with
    | normal s => simpa [isTidyList] using h.2
    | curDir => simp [Comp.isNormal] at h
    | parentDir => simp [Comp.isNormal] at h

theorem isTidyList_of_allParent {l : List Comp} (h : l.all Comp.isParent = true) :
    isTidyList l = true := by
  induction l with
  | nil => rfl
  | cons c rest ih =>
    rw [List.all_cons, Bool.and_eq_true] at h
    cases c with
    | parentDir => simpa [isTidyList] using ih h.2
    | normal s => simp [Comp.isParent] at h
    | curDir => simp [Comp.isParent] at h

theorem isTidyList_append_normal {l : List Comp} (s : String)
    (h : isTidyList l = true) : isTidyList (l ++ [.normal s]) = true := by
  induction l with
  | nil => rfl
  | cons c rest ih =>
    cases c with
    | normal t =>
      simp [isTidyList, List.all_append, Comp.isNormal] at h ⊢
      exact h
    | curDir => simp [isTidyList] at h
    | parentDir =>
      simp only [List.cons_append, isTidyList] at h ⊢
      exact ih h

theorem isTidyList_dropLast {l : List Comp} (h : isTidyList l = true) :
    isTidyList l.dropLast = true := by
  induction l with
  | nil => rfl
  | cons c rest ih =>
    cases rest with
    | nil => rfl
    | cons d t =>
      rw [List.dropLast_cons₂]
      cases c with
      | normal s =>
        simp only [isTidyList] at h ⊢
        exact all_dropLast h
      | curDir => simp [isTidyList] at h
      | parentDir =>
        simp only [isTidyList] at h ⊢
        exact ih h

theorem noCur_of_isTidyList {l : List Comp} (h : isTidyList l = true) :
    l.all (fun c => !c.isCur) = true := by
  induction l with
  | nil => rfl
  | cons c rest ih =>
    cases c with
    | normal s =>
      simp only [isTidyList] at h
      rw [List.all_eq_true] at h ⊢
      intro x hx
      rcases List.mem_cons.mp hx with h1 | h1
      · subst h1; rfl
      · have := h x h1
        cases x <;> simp_all [Comp.isNormal, Comp.isCur]
    | curDir => simp [isTidyList] at h
    | parentDir =>
      simp only [isTidyList] at h
      simpa [List.all_cons, Comp.isCur] using ih h

theorem getLast?_ne_curDir {l : List Comp} (h : isTidyList l = true) :
    l.getLast? ≠ some Comp.curDir := by
  intro hl
  have hm := mem_of_getLast?_eq hl
  have := noCur_of_isTidyList h
  rw [List.all_eq_true] at this
  have := this _ hm
  simp [Comp.isCur] at this

theorem allParent_of_getLast?_parent {l : List Comp} (ht : isTidyList l = true)
    (hl : l.getLast? = some Comp.parentDir) : l.all Comp.isParent = true := by
  induction l with
  | nil => simp at hl
  | cons c rest ih =>
    cases rest with
    | nil =>
      simp at hl
      subst hl; rfl
    | cons d t =>
      rw [List.getLast?_cons_cons] at hl
      cases c with
      | normal s =>
        exfalso
        have hm := mem_of_getLast?_eq hl
        simp only [isTidyList] at ht
        rw [List.all_eq_true] at ht
        have := ht _ hm
        simp [Comp.isNormal] at this
      | curDir => simp [isTidyList] at ht
      | parentDir =>
        simp only [isTidyList] at ht
        simpa [List.all_cons, Comp.isParent] using ih ht hl

theorem allNormal_getLast?_ne_parent {l : List Comp} (h : l.all Comp.isNormal = true) :
    l.getLast? ≠ some Comp.parentDir := by
  intro hl
  have hm := mem_of_getLast?_eq hl
  rw [List.all_eq_true] at h
  have := h _ hm
  simp [Comp.isNormal] at this

theorem tidyStep_preserves (ab : Bool) (acc : List Comp) (c : Comp)
    (h1 : isTidyList acc = true)
    (h2 : ab = true → acc.all Comp.isNormal = true) :
    isTidyList (tidyStep ab acc c) = true
      ∧ (ab = true → (tidyStep ab acc c).all Comp.isNormal = true) := by
  cases c with
  | normal s =>
    refine ⟨isTidyList_append_normal s h1, fun hab => ?_⟩
    simp [tidyStep, List.all_append, Comp.isNormal, h2 hab]
  | curDir => exact ⟨h1, h2⟩
  | parentDir =>
    rcases hL : acc.getLast? with _ | cl
    · have hacc : acc = [] := List.getLast?_eq_none_iff.mp hL
      subst hacc
      cases ab with
      | true => exact ⟨rfl, fun _ => rfl⟩
      | false =>
        refine ⟨rfl, fun h => nomatch h⟩
    · cases cl with
      | normal s =>
        have he : tidyStep ab acc .parentDir = acc.dropLast := by
          simp [tidyStep, hL]
        rw [he]
        exact ⟨isTidyList_dropLast h1, fun hab => all_dropLast (h2 hab)⟩
      | parentDir =>
        have hab' : ab = false := by
          cases ab with
          | false => rfl
          | true => exact absurd hL (allNormal_getLast?_ne_parent (h2 rfl))
        subst hab'
        have hpar := allParent_of_getLast?_parent h1 hL
        have he : tidyStep false acc .parentDir = acc ++ [.parentDir] := by
          simp [tidyStep, hL]
        rw [he]
        refine ⟨isTidyList_of_allParent ?_, fun h => nomatch h⟩
        simp [List.all_append, Comp.isParent, hpar]
      | curDir => exact absurd hL (getLast?_ne_curDir h1)

theorem foldl_tidyStep_preserves (ab : Bool) (cs : List Comp) :
    ∀ acc : List Comp, isTidyList acc = true →
      (ab = true → acc.all Comp.isNormal = true) →
      isTidyList (cs.foldl (tidyStep ab) acc) = true
        ∧ (ab = true → (cs.foldl (tidyStep ab) acc).all Comp.isNormal = true) := by
  induction cs with
  | nil => intro acc h1 h2; exact ⟨h1, h2⟩
  | cons c rest ih =>
    intro acc h1 h2
    have h := tidyStep_preserves ab acc c h1 h2
    exact ih _ h.1 h.2

theorem foldl_tidyStep_allNormal (ab : Bool) (cs : List Comp) :
    cs.all Comp.isNormal = true →
    ∀ acc : List Comp, cs.foldl (tidyStep ab) acc = acc ++ cs := by
  induction cs with
  | nil => intro _ acc; simp
  | cons c rest ih =>
    intro h acc
    rw [List.all_cons, Bool.and_eq_true] at h
    cases c with
    | normal s =>
      rw [List.foldl_cons]
      have he : tidyStep ab acc (.normal s) = acc ++ [.normal s] := rfl
      rw [he, ih h.2]
      simp
    | curDir => simp [Comp.isNormal] at h
    | parentDir => simp [Comp.isNormal] at h

theorem tidyStep_allParent (acc : List Comp) (h : acc.all Comp.isParent = true) :
    tidyStep false acc .parentDir = acc ++ [.parentDir] := by
  rcases hL : acc.getLast? with _ | cl
  · have hacc : acc = [] := List.getLast?_eq_none_iff.mp hL
    subst hacc; rfl
  · have hm := mem_of_getLast?_eq hL
    rw [List.all_eq_true] at h
    have := h _ hm
    cases cl with
    | parentDir => simp [tidyStep, hL]
    | normal s => simp [Comp.isParent] at this
    | curDir => simp [Comp.isParent] at this

theorem foldl_tidyStep_fixed (ab : Bool) :
    ∀ l acc : List Comp, isTidyList l = true →
      acc.all Comp.isParent = true →
      (ab = true → acc = [] ∧ l.all Comp.isNormal = true) →
      l.foldl (tidyStep ab) acc = acc ++ l := by
  intro l
  induction l with
  | nil => intro acc _ _ _; simp
  | cons c rest ih =>
    intro acc ht hp hab
    cases c with
    | normal s =>
      simp only [isTidyList] at ht
      rw [List.foldl_cons]
      have he : tidyStep ab acc (.normal s) = acc ++ [.normal s] := rfl
      rw [he, foldl_tidyStep_allNormal ab rest ht]
      simp
    | curDir => simp [isTidyList] at ht
    | parentDir =>
      have hab' : ab = false := by
        cases ab with
        | false => rfl
        | true =>
          have h2 := (hab rfl).2
          simp [List.all_cons, Comp.isNormal] at h2
      subst hab'
      simp only [isTidyList] at ht
      rw [List.foldl_cons, tidyStep_allParent acc hp]
      rw [ih (acc ++ [.parentDir]) ht
        (by simp [List.all_append, Comp.isParent, hp]) (fun h => nomatch h)]
      simp

/-- C1: `tidy_path` is the fold of `tidyStep` over the components after the
root, and `tidyStep` performs the specified lexical reduction: it drops a
`.` component, cancels a `..` only against a trailing `Normal` component,
keeps a `..` when the accumulator is empty (relative input) or ends in
`..`, and drops a `..` that immediately follows the root; moreover the
five spec examples hold: `a/b/../c` tidies to `a/c`, `a/../../b` to
`../b`, `/../a` to `/a`, `../foo/../bar` to `../bar`, and `../../foo` is
unchanged. -/
theorem tidy_path_spec_reduction :
    (∀ p : RPath, tidy_path p = ⟨p.absolute, p.comps.foldl (tidyStep p.absolute) []⟩)
      ∧ (∀ (ab : Bool) (acc : List Comp), tidyStep ab acc Comp.curDir = acc)
      ∧ (∀ (ab : Bool) (acc : List Comp) (s : String),
          acc.getLast? = some (Comp.normal s) →
          tidyStep ab acc Comp.parentDir = acc.dropLast)
      ∧ tidyStep false [] Comp.parentDir = [Comp.parentDir]
      ∧ (∀ (ab : Bool) (acc : List Comp), acc.getLast? = some Comp.parentDir →
          tidyStep ab acc Comp.parentDir = acc ++ [Comp.parentDir])
      ∧ tidyStep true [] Comp.parentDir = []
      ∧ tidy_path ⟨false, [Comp.normal "a", Comp.normal "b", Comp.parentDir, Comp.normal "c"]⟩
          = ⟨false, [Comp.normal "a", Comp.normal "c"]⟩
      ∧ tidy_path ⟨false, [Comp.normal "a", Comp.parentDir, Comp.parentDir, Comp.normal "b"]⟩
          = ⟨false, [Comp.parentDir, Comp.normal "b"]⟩
      ∧ tidy_path ⟨true, [Comp.parentDir, Comp.normal "a"]⟩ = ⟨true, [Comp.normal "a"]⟩
      ∧ tidy_path ⟨false, [Comp.parentDir, Comp.normal "foo", Comp.parentDir, Comp.normal "bar"]⟩
          = ⟨false, [Comp.parentDir, Comp.normal "bar"]⟩
      ∧ tidy_path ⟨false, [Comp.parentDir, Comp.parentDir, Comp.normal "foo"]⟩
          = ⟨false, [Comp.parentDir, Comp.parentDir, Comp.normal "foo"]⟩ := by
  refine ⟨fun p => rfl, fun ab acc => rfl, ?_, rfl, ?_, rfl, ?_, ?_, ?_, ?_, ?_⟩
  · intro ab acc s h
    simp [tidyStep, h]
  · intro ab acc h
    simp [tidyStep, h]
  all_goals decide

theorem tidy_path_spec_reduction_witness :
    tidyStep true [Comp.normal "a"] Comp.parentDir = [Comp.normal "a"].dropLast
      ∧ tidyStep false [Comp.parentDir] Comp.parentDir
          = [Comp.parentDir] ++ [Comp.parentDir] :=
  ⟨tidy_path_spec_reduction.2.2.1 true [Comp.normal "a"] "a" rfl,
   tidy_path_spec_reduction.2.2.2.2.1 false [Comp.parentDir] rfl⟩

/-- C10: for every input path the result of `tidy_path` is in normal form:
it contains no `.` component, every `..` it contains occurs in a single
leading run before the first `Normal` component, a `..` never appears
after a root component (an absolute result contains no `..` at all), and
the result is absolute exactly when the input is. -/
theorem tidy_path_normal_form (p : RPath) :
    (tidy_path p).comps.all (fun c => !c.isCur) = true
      ∧ isTidyList (tidy_path p).comps = true
      ∧ (p.absolute = true → (tidy_path p).comps.all Comp.isNormal = true)
      ∧ (tidy_path p).absolute = p.absolute := by
  have h := foldl_tidyStep_preserves p.absolute p.comps [] rfl (fun _ => rfl)
  exact ⟨noCur_of_isTidyList h.1, h.1, h.2, rfl⟩

theorem tidy_path_normal_form_witness :
    isTidyList (tidy_path ⟨true, [Comp.parentDir, Comp.normal "a", Comp.curDir]⟩).comps = true
      ∧ (tidy_path ⟨true, [Comp.parentDir, Comp.normal "a", Comp.curDir]⟩).comps.all
          Comp.isNormal = true :=
  ⟨(tidy_path_normal_form ⟨true, [Comp.parentDir, Comp.normal "a", Comp.curDir]⟩).2.1,
   (tidy_path_normal_form ⟨true, [Comp.parentDir, Comp.normal "a", Comp.curDir]⟩).2.2.1 rfl⟩

/-- C2: `tidy_path` is the identity on every path containing no `.` and no
`..` components, and is idempotent on every path. -/
theorem tidy_path_id_idem (p : RPath) :
    ((∀ c ∈ p.comps, c ≠ Comp.curDir ∧ c ≠ Comp.parentDir) → tidy_path p = p)
      ∧ tidy_path (tidy_path p) = tidy_path p := by
  constructor
  · intro h
    have hall : p.comps.all Comp.isNormal = true := by
      rw [List.all_eq_true]
      intro c hc
      rcases h c hc with ⟨h1, h2⟩
      cases c with
      | normal s => rfl
      | curDir => exact absurd rfl h1
      | parentDir => exact absurd rfl h2
    cases p with
    | mk ab comps =>
      simp only [tidy_path]
      congr 1
      rw [foldl_tidyStep_allNormal ab comps hall]
      simp
  · have h := foldl_tidyStep_preserves p.absolute p.comps [] rfl (fun _ => rfl)
    simp only [tidy_path]
    congr 1
    rw [foldl_tidyStep_fixed p.absolute _ [] h.1 rfl (fun hab => ⟨rfl, h.2 hab⟩)]
    simp

theorem tidy_path_id_idem_witness :
    tidy_path ⟨false, [Comp.normal "a", Comp.normal "b"]⟩
        = ⟨false, [Comp.normal "a", Comp.normal "b"]⟩
      ∧ tidy_path (tidy_path ⟨false, [Comp.normal "x", Comp.parentDir]⟩)
          = tidy_path ⟨false, [Comp.normal "x", Comp.parentDir]⟩ :=
  ⟨(tidy_path_id_idem ⟨false, [Comp.normal "a", Comp.normal "b"]⟩).1 (by decide),
   (tidy_path_id_idem ⟨false, [Comp.normal "x", Comp.parentDir]⟩).2⟩

/-!
Walk-and-transform drivers.

`run_foreach` in src/main.rs and `main` in src/bin/slinky.rs both walk the
root with WalkDir (traversal errors dropped by `filter_map(|e| e.ok())`),
skip non-symlinks, call `fs::read_link(path)?` (the `?` propagates the
error out of the loop), classify the entry, apply the four boolean status
filters and two optional regex filters, and dispatch on the subcommand.
A classified entry is modelled by `LinkEntry`; environment-dependent
results (`fs::canonicalize`, `pathdiff::diff_paths`, the regex match and
replacement of edit-target) are carried as fields resp. command data,
identical for both drivers.  Dispatch on one entry either aborts the
whole run (the in-loop `Regex::new(pattern)?` of edit-target,
src/main.rs:449 and src/bin/slinky.rs:171, is outside `handle_operation`)
or produces a `Mutation` (which filesystem mutation sequence runs,
`noMutation` under dry-run or a skip) and a `Report` (which per-entry
message category is emitted).
-/

/-- Kind of one walked entry of a target tree: `is_dir()` or not. -/
inductive EKind
  | dir
  | file
deriving DecidableEq, Repr

/-- Classification snapshot of one discovered symlink (src/main.rs:337-349,
src/bin/slinky.rs:45-57): whether `target_resolved.exists()` failed,
whether the raw target string is absolute, whether `target_resolved` is a
directory, the parsed raw target, the environment results
`fs::canonicalize(&target_resolved)`, `fs::canonicalize(link_dir)` and
`pathdiff::diff_paths(&abs_target, &abs_link_dir)` (`none` = the call
fails resp. returns `None`), and the WalkDir enumeration of the resolved
target tree used by the tree subcommands (`targetWalk`; an element `none`
is an entry that errors during traversal, `some` carries the relative
path and kind). -/
structure LinkEntry where
  isDangling : Bool
  isAbsolute : Bool
  targetIsDir : Bool
  rawTarget : RPath
  canonTarget : Option RPath
  canonLinkDir : Option RPath
  diffPath : Option RPath
  targetWalk : List (Option (List String × EKind))
deriving DecidableEq, Repr

/-- The entries of a target walk that yield without error:
`filter_map(|e| e.ok())` as in the inline mirror loop of run_foreach
(src/main.rs:584-587), which silently skips traversal errors. -/
def okEntries (w : List (Option (List String × EKind))) :
    List (List String × EKind) :=
  w.filterMap id

/-- Whether the target walk contains a traversal error. -/
def hasWalkErr (w : List (Option (List String × EKind))) : Bool :=
  w.any (fun x => x.isNone)

/-- The entries processed by `create_hard_link_tree`/`create_symlink_tree`
(src/lib.rs:98-99, 120-121), whose `let entry = entry?` aborts the mirror
at the first traversal error: everything before that error. -/
def entriesBeforeErr : List (Option (List String × EKind)) →
    List (List String × EKind)
  | [] => []
  | none :: _ => []
  | some e :: rest => e :: entriesBeforeErr rest

/-- Which filesystem mutation sequence a subcommand runs for one entry.
The tree mutations carry the list of target-walk entries actually
mirrored under the link's location (the destination directory itself is
created in both drivers before any entry is processed). -/
inductive Mutation
  | noMutation
  | relink (t : RPath)
  | makeHardlink
  | mirrorHard (entries : List (List String × EKind))
  | mirrorSym (entries : List (List String × EKind))
  | moveTargetHere
  | removeLink
  | runShell
deriving DecidableEq, Repr

deriving instance DecidableEq for Except

/-- Which per-entry message category a subcommand emits for one entry. -/
inductive Report
  | listed
  | silent
  | transformed (old new : RPath)
  | alreadyTidy
  | identicalTarget
  | skippedDangling
  | skippedDir
  | skippedFile
  | opError
deriving DecidableEq, Repr

/-- The subcommands shared by both drivers.  `editTarget` carries the
environment results of the regex machinery: whether `Regex::new(pattern)`
succeeds (`patternOk`; its `?` aborts the whole walk on failure), whether
`re.is_match(&target_str)` holds, and the replaced string. -/
inductive Cmd
  | print (status : Bool)
  | tidy
  | editTarget (patternOk : Bool) (hasMatch : Bool) (replaced : RPath)
  | toAbsolute
  | toRelative
  | toHardlink
  | toHardlinkTree
  | replaceWithTarget
  | delete
  | exec
deriving DecidableEq, Repr

/-- The full subcommand set of src/bin/slinky.rs: the shared subcommands
plus `to-tree`. -/
inductive SCmd
  | shared (c : Cmd)
  | toTree
deriving DecidableEq, Repr

/-- Per-entry dispatch of `run_foreach` (src/main.rs:375-668).  The tidy
comparison `new_target_str != target_str` is modelled at the
component-list level.  `.error ()` is the `Regex::new(pattern)?` abort of
edit-target (src/main.rs:449).  On a directory target, to-hardlink-tree
runs the inline mirror loop (src/main.rs:581-595) whose
`filter_map(|e| e.ok())` skips traversal errors, so every ok entry of the
target walk is mirrored. -/
def foreachStep (cmd : Cmd) (dryRun : Bool) (e : LinkEntry) :
    Except Unit (Mutation × Report) :=
  match cmd with
  | .print _ => .ok (.noMutation, .listed)
  | .tidy =>
    let newT := tidy_path e.rawTarget
    if newT ≠ e.rawTarget then
      .ok (if dryRun then .noMutation else .relink newT,
        .transformed e.rawTarget newT)
    else .ok (.noMutation, .silent)
  | .editTarget patternOk hasMatch replaced =>
    if patternOk = false then .error ()
    else if hasMatch then
      if replaced ≠ e.rawTarget then
        .ok (if dryRun then .noMutation else .relink replaced,
          .transformed e.rawTarget replaced)
      else .ok (.noMutation, .identicalTarget)
    else .ok (.noMutation, .silent)
  | .toAbsolute =>
    if e.isDangling then .ok (.noMutation, .skippedDangling)
    else if e.isAbsolute then .ok (.noMutation, .silent)
    else
      match e.canonTarget with
      | none => .ok (.noMutation, .opError)
      | some t =>
        .ok (if dryRun then .noMutation else .relink t,
          .transformed e.rawTarget t)
  | .toRelative =>
    if e.isDangling then .ok (.noMutation, .skippedDangling)
    else if !e.isAbsolute then .ok (.noMutation, .silent)
    else
      match e.canonTarget, e.canonLinkDir with
      | none, _ => .ok (.noMutation, .opError)
      | some _, none => .ok (.noMutation, .opError)
      | some _, some _ =>
        match e.diffPath with
        | none => .ok (.noMutation, .silent)
        | some r =>
          .ok (if dryRun then .noMutation else .relink r,
            .transformed e.rawTarget r)
  | .toHardlink =>
    if e.isDangling then .ok (.noMutation, .skippedDangling)
    else if e.targetIsDir then .ok (.noMutation, .skippedDir)
    else .ok (if dryRun then .noMutation else .makeHardlink, .silent)
  | .toHardlinkTree =>
    if e.isDangling then .ok (.noMutation, .skippedDangling)
    else if dryRun then .ok (.noMutation, .silent)
    else if e.targetIsDir then
      .ok (.mirrorHard (okEntries e.targetWalk), .silent)
    else .ok (.makeHardlink, .silent)
  | .replaceWithTarget =>
    if e.isDangling then .ok (.noMutation, .skippedDangling)
    else if dryRun then .ok (.noMutation, .silent)
    else
      match e.canonTarget with
      | none => .ok (.noMutation, .opError)
      | some _ => .ok (.moveTargetHere, .silent)
  | .delete => .ok (if dryRun then .noMutation else .removeLink, .silent)
  | .exec => .ok (if dryRun then .noMutation else .runShell, .silent)

/-- Per-entry dispatch of `main` in src/bin/slinky.rs (lines 85-408).  It
differs from `foreachStep` in the already-tidy report of `tidy`
(slinky.rs:154-161), in `to-hardlink-tree` on a non-directory target
(slinky.rs:294-300 skips, where run_foreach hardlinks the file), in
`to-hardlink-tree` on a directory target (slinky.rs:311 calls
`create_hard_link_tree`, whose `entry?` at src/lib.rs:99 aborts the
mirror at the first traversal error and reports a per-entry failure,
where run_foreach skips error entries and keeps mirroring), and in
having the extra `to-tree` subcommand (slinky.rs:318-344, backed by
`create_symlink_tree` with the same `entry?` behaviour). -/
def slinkyStep (cmd : SCmd) (dryRun : Bool) (e : LinkEntry) :
    Except Unit (Mutation × Report) :=
  match cmd with
  | .shared (.print _) => .ok (.noMutation, .listed)
  | .shared .tidy =>
    let newT := tidy_path e.rawTarget
    if newT ≠ e.rawTarget then
      .ok (if dryRun then .noMutation else .relink newT,
        .transformed e.rawTarget newT)
    else .ok (.noMutation, .alreadyTidy)
  | .shared (.editTarget patternOk hasMatch replaced) =>
    if patternOk = false then .error ()
    else if hasMatch then
      if replaced ≠ e.rawTarget then
        .ok (if dryRun then .noMutation else .relink replaced,
          .transformed e.rawTarget replaced)
      else .ok (.noMutation, .identicalTarget)
    else .ok (.noMutation, .silent)
  | .shared .toAbsolute =>
    if e.isDangling then .ok (.noMutation, .skippedDangling)
    else if e.isAbsolute then .ok (.noMutation, .silent)
    else
      match e.canonTarget with
      | none => .ok (.noMutation, .opError)
      | some t =>
        .ok (if dryRun then .noMutation else .relink t,
          .transformed e.rawTarget t)
  | .shared .toRelative =>
    if e.isDangling then .ok (.noMutation, .skippedDangling)
    else if !e.isAbsolute then .ok (.noMutation, .silent)
    else
      match e.canonTarget, e.canonLinkDir with
      | none, _ => .ok (.noMutation, .opError)
      | some _, none => .ok (.noMutation, .opError)
      | some _, some _ =>
        match e.diffPath with
        | none => .ok (.noMutation, .silent)
        | some r =>
          .ok (if dryRun then .noMutation else .relink r,
            .transformed e.rawTarget r)
  | .shared .toHardlink =>
    if e.isDangling then .ok (.noMutation, .skippedDangling)
    else if e.targetIsDir then .ok (.noMutation, .skippedDir)
    else .ok (if dryRun then .noMutation else .makeHardlink, .silent)
  | .shared .toHardlinkTree =>
    if e.isDangling then .ok (.noMutation, .skippedDangling)
    else if !e.targetIsDir then .ok (.noMutation, .skippedFile)
    else if dryRun then .ok (.noMutation, .silent)
    else
      .ok (.mirrorHard (entriesBeforeErr e.targetWalk),
        if hasWalkErr e.targetWalk then .opError else .silent)
  | .shared .replaceWithTarget =>
    if e.isDangling then .ok (.noMutation, .skippedDangling)
    else if dryRun then .ok (.noMutation, .silent)
    else
      match e.canonTarget with
      | none => .ok (.noMutation, .opError)
      | some _ => .ok (.moveTargetHere, .silent)
  | .shared .delete => .ok (if dryRun then .noMutation else .removeLink, .silent)
  | .shared .exec => .ok (if dryRun then .noMutation else .runShell, .silent)
  | .toTree =>
    if e.isDangling then .ok (.noMutation, .skippedDangling)
    else if !e.targetIsDir then .ok (.noMutation, .skippedFile)
    else if dryRun then .ok (.noMutation, .silent)
    else
      .ok (.mirrorSym (entriesBeforeErr e.targetWalk),
        if hasWalkErr e.targetWalk then .opError else .silent)

/-- The active filter set: the four boolean status filters and the two
optional regex filters, the latter abstracted as predicates on the
classified entry. -/
structure Filters where
  onlyDangling : Bool
  onlyAttached : Bool
  onlyAbsolute : Bool
  onlyRelative : Bool
  filterOrigin : Option (LinkEntry → Bool)
  filterTarget : Option (LinkEntry → Bool)

/-- The filter cascade (src/main.rs:352-373, src/bin/slinky.rs:60-81):
each failing filter `continue`s to the next entry. -/
def passesFilters (f : Filters) (e : LinkEntry) : Bool :=
  (!f.onlyDangling || e.isDangling)
    && (!f.onlyAttached || !e.isDangling)
    && (!f.onlyAbsolute || e.isAbsolute)
    && (!f.onlyRelative || !e.isAbsolute)
    && (match f.filterOrigin with | none => true | some p => p e)
    && (match f.filterTarget with | none => true | some p => p e)

/-- One entry yielded by the WalkDir iteration: whether
`path.is_symlink()` holds, and the result of `fs::read_link(path)` plus
classification (`none` = the read fails, e.g. the path vanished). -/
structure RawEntry where
  isSymlink : Bool
  readLink : Option LinkEntry

/-- The result of one driver run: the per-entry outcomes produced before
the run ended, and whether the run aborted with an error instead of
finishing the walk. -/
structure RunResult where
  outcomes : List (Mutation × Report)
  aborted : Bool
deriving Repr

/-- The walk loop shared by both drivers: non-symlinks are skipped, a
`fs::read_link` failure aborts via `?` (src/main.rs:337,
src/bin/slinky.rs:45), filtered-out entries are skipped, a dispatch-level
abort (edit-target's `Regex::new(pattern)?`, src/main.rs:449,
src/bin/slinky.rs:171) also ends the run, and each passing entry
otherwise contributes one per-entry outcome. -/
def runLoop (f : Filters) (step : LinkEntry → Except Unit (Mutation × Report)) :
    List RawEntry → RunResult
  | [] => ⟨[], false⟩
  | e :: es =>
    if e.isSymlink = false then runLoop f step es
    else
      match e.readLink with
      | none => ⟨[], true⟩
      | some le =>
        if passesFilters f le then
          match step le with
          | .error _ => ⟨[], true⟩
          | .ok r =>
            let rest := runLoop f step es
            ⟨r :: rest.outcomes, rest.aborted⟩
        else runLoop f step es

/-- Driver `run_foreach` (src/main.rs:310-671): no root existence check;
WalkDir on a nonexistent root yields a single error entry which
`filter_map(|e| e.ok())` drops, so the loop body never runs. -/
def run_foreach (f : Filters) (c : Cmd) (dryRun : Bool)
    (rootExists : Bool) (entries : List RawEntry) : RunResult :=
  runLoop f (foreachStep c dryRun) (if rootExists then entries else [])

/-- Driver `main` of src/bin/slinky.rs (lines 16-411): it bails out before
the walk when the root path does not exist (lines 19-21). -/
def slinky_main (f : Filters) (c : SCmd) (dryRun : Bool)
    (rootExists : Bool) (entries : List RawEntry) : RunResult :=
  if rootExists then runLoop f (slinkyStep c dryRun) entries else ⟨[], true⟩

/-- The mutation performed by one dispatch outcome: an aborting dispatch
(invalid edit-target pattern) performs none, since `Regex::new` fails
before any filesystem call. -/
def mutationOf : Except Unit (Mutation × Report) → Mutation
  | .ok (m, _) => m
  | .error _ => .noMutation

theorem entriesBeforeErr_eq_okEntries :
    ∀ {w : List (Option (List String × EKind))}, hasWalkErr w = false →
      entriesBeforeErr w = okEntries w := by
  intro w
  induction w with
  | nil => intro _; rfl
  | cons x rest ih =>
    intro h
    cases x with
    | none => simp [hasWalkErr] at h
    | some e =>
      simp only [hasWalkErr, List.any_cons, Option.isNone_some, Bool.false_or] at h
      simp only [entriesBeforeErr, okEntries, List.filterMap_cons_some, id]
      rw [ih h]
      rfl

/-- C3 corrected: when reading a discovered symlink's target fails during
classification, the failure is not surfaced as a per-entry failure: the
`?` on `fs::read_link` (src/main.rs:337, src/bin/slinky.rs:45) propagates
the error out of the walk loop, so the whole run aborts and no later
entry is processed.  Per-entry failure with continuation applies only to
errors raised inside `handle_operation`. -/
theorem read_link_failure_aborts (f : Filters)
    (step : LinkEntry → Except Unit (Mutation × Report))
    (e : RawEntry) (rest : List RawEntry)
    (h1 : e.isSymlink = true) (h2 : e.readLink = none) :
    runLoop f step (e :: rest) = ⟨[], true⟩ := by
  simp [runLoop, h1, h2]

theorem read_link_failure_aborts_witness :
    runLoop ⟨false, false, false, false, none, none⟩
        (foreachStep .delete false) [⟨true, none⟩] = ⟨[], true⟩ :=
  read_link_failure_aborts ⟨false, false, false, false, none, none⟩
    (foreachStep .delete false) ⟨true, none⟩ [] rfl rfl

/-- C3 as stated is false: with a read-failing symlink first in the walk,
the run aborts and the following healthy entry - which on its own yields
a per-entry outcome - is never processed. -/
theorem read_link_failure_cex :
    runLoop ⟨false, false, false, false, none, none⟩ (foreachStep (.print false) false)
        [⟨true, none⟩,
         ⟨true, some ⟨false, false, false, ⟨false, []⟩, none, none, none, []⟩⟩]
      = ⟨[], true⟩
    ∧ runLoop ⟨false, false, false, false, none, none⟩ (foreachStep (.print false) false)
        [⟨true, some ⟨false, false, false, ⟨false, []⟩, none, none, none, []⟩⟩]
      = ⟨[(.noMutation, .listed)], false⟩ :=
  ⟨rfl, rfl⟩

/-- C4: for a dangling link, retarget-to-absolute and retarget-to-relative
perform no filesystem mutation in either driver (the stored target is
left unchanged), the entry is reported as a skipped dangling symlink,
and the walk proceeds to the next entry: whenever dispatch yields an
outcome - as it does here - the loop recurses on the remaining
entries. -/
theorem dangling_retarget_no_mutation (dryRun : Bool) (e : LinkEntry)
    (h : e.isDangling = true) :
    foreachStep .toAbsolute dryRun e = .ok (.noMutation, .skippedDangling)
      ∧ foreachStep .toRelative dryRun e = .ok (.noMutation, .skippedDangling)
      ∧ slinkyStep (.shared .toAbsolute) dryRun e
          = .ok (.noMutation, .skippedDangling)
      ∧ slinkyStep (.shared .toRelative) dryRun e
          = .ok (.noMutation, .skippedDangling)
      ∧ (∀ (f : Filters) (step : LinkEntry → Except Unit (Mutation × Report))
          (r : Mutation × Report) (raw : RawEntry) (rest : List RawEntry),
          raw.isSymlink = true → raw.readLink = some e → step e = .ok r →
          runLoop f step (raw :: rest)
            = if passesFilters f e then
                ⟨r :: (runLoop f step rest).outcomes,
                 (runLoop f step rest).aborted⟩
              else runLoop f step rest) := by
  refine ⟨?_, ?_, ?_, ?_, ?_⟩
  · simp [foreachStep, h]
  · simp [foreachStep, h]
  · simp [slinkyStep, h]
  · simp [slinkyStep, h]
  · intro f step r raw rest h1 h2 h3
    simp [runLoop, h1, h2, h3]

theorem dangling_retarget_no_mutation_witness :
    foreachStep .toAbsolute false
        ⟨true, false, false, ⟨false, []⟩, none, none, none, []⟩
        = .ok (.noMutation, .skippedDangling)
      ∧ slinkyStep (.shared .toRelative) false
          ⟨true, false, false, ⟨false, []⟩, none, none, none, []⟩
        = .ok (.noMutation, .skippedDangling) :=
  ⟨(dangling_retarget_no_mutation false
      ⟨true, false, false, ⟨false, []⟩, none, none, none, []⟩ rfl).1,
   (dangling_retarget_no_mutation false
      ⟨true, false, false, ⟨false, []⟩, none, none, none, []⟩ rfl).2.2.2.1⟩

theorem passesFilters_exclusive (f : Filters) (e : LinkEntry)
    (hex : (f.onlyDangling = true ∧ f.onlyAttached = true)
        ∨ (f.onlyAbsolute = true ∧ f.onlyRelative = true)) :
    passesFilters f e = false := by
  rcases hex with ⟨h1, h2⟩ | ⟨h1, h2⟩
  · cases hd : e.isDangling <;> simp [passesFilters, h1, h2, hd]
  · cases hd : e.isAbsolute <;> simp [passesFilters, h1, h2, hd]

theorem runLoop_exclusive (f : Filters)
    (step : LinkEntry → Except Unit (Mutation × Report))
    (hex : (f.onlyDangling = true ∧ f.onlyAttached = true)
        ∨ (f.onlyAbsolute = true ∧ f.onlyRelative = true)) :
    ∀ es : List RawEntry, (∀ x ∈ es, x.isSymlink = true → x.readLink ≠ none) →
      runLoop f step es = ⟨[], false⟩ := by
  intro es
  induction es with
  | nil => intro _; rfl
  | cons e rest ih =>
    intro hok
    have hrest := ih (fun x hx => hok x (List.mem_cons_of_mem e hx))
    by_cases hs : e.isSymlink = false
    · simp [runLoop, hs, hrest]
    · simp only [Bool.not_eq_false] at hs
      rcases hr : e.readLink with _ | le
      · exact absurd hr (hok e (List.mem_cons_self e rest) hs)
      · simp [runLoop, hs, hr, hrest, passesFilters_exclusive f le hex]

/-- C7: a walk invoked with both filters of a mutually exclusive pair
enabled (only-dangling with only-attached, or only-absolute with
only-relative) yields the empty result set in both drivers, for any
input entries whose reads succeed, and this is not an error. -/
theorem exclusive_filters_empty (f : Filters) (c : Cmd) (sc : SCmd) (dryRun : Bool)
    (es : List RawEntry)
    (hex : (f.onlyDangling = true ∧ f.onlyAttached = true)
        ∨ (f.onlyAbsolute = true ∧ f.onlyRelative = true))
    (hok : ∀ x ∈ es, x.isSymlink = true → x.readLink ≠ none) :
    run_foreach f c dryRun true es = ⟨[], false⟩
      ∧ slinky_main f sc dryRun true es = ⟨[], false⟩ := by
  constructor
  · simpa [run_foreach] using runLoop_exclusive f (foreachStep c dryRun) hex es hok
  · simpa [slinky_main] using runLoop_exclusive f (slinkyStep sc dryRun) hex es hok

theorem exclusive_filters_empty_witness :
    run_foreach ⟨true, true, false, false, none, none⟩ .tidy false true
        [⟨true, some ⟨false, true, false, ⟨false, []⟩, none, none, none, []⟩⟩]
      = ⟨[], false⟩
      ∧ slinky_main ⟨true, true, false, false, none, none⟩ .toTree false true
        [⟨true, some ⟨false, true, false, ⟨false, []⟩, none, none, none, []⟩⟩]
      = ⟨[], false⟩ :=
  exclusive_filters_empty ⟨true, true, false, false, none, none⟩ .tidy .toTree false
    [⟨true, some ⟨false, true, false, ⟨false, []⟩, none, none, none, []⟩⟩]
    (Or.inl ⟨rfl, rfl⟩)
    (fun x hx _ => by simp at hx; subst hx; simp)

/-- C8: with the dry-run flag set, every subcommand of both drivers
(including all transform operations) computes its per-entry report but
performs no filesystem mutation for any entry; a dispatch that aborts
the walk has performed none either. -/
theorem dry_run_no_mutation (c : Cmd) (sc : SCmd) (e : LinkEntry) :
    mutationOf (foreachStep c true e) = Mutation.noMutation
      ∧ mutationOf (slinkyStep sc true e) = Mutation.noMutation := by
  refine ⟨?_, ?_⟩
  · cases c <;> (simp only [foreachStep]; repeat' split) <;> simp_all [mutationOf]
  · rcases sc with c | _
    · cases c <;> (simp only [slinkyStep]; repeat' split) <;> simp_all [mutationOf]
    · simp only [slinkyStep]
      repeat' split
      all_goals simp_all [mutationOf]

/-- C9 is false as stated: on an attached link to a non-directory target,
to-hardlink-tree in run_foreach (src/main.rs:596-599) degenerates to a
single hardlink, while slinky.rs (294-300) skips the entry with a
"skipping file" report - so the drivers disagree on a shared subcommand. -/
theorem drivers_not_equiv :
    foreachStep .toHardlinkTree false
        ⟨false, false, false, ⟨false, []⟩, none, none, none, []⟩
      ≠ slinkyStep (.shared .toHardlinkTree) false
          ⟨false, false, false, ⟨false, []⟩, none, none, none, []⟩ := by
  decide

/-- C9 amended: the two drivers are behaviourally equivalent on every
shared subcommand and entry except for four divergences: (a)
to-hardlink-tree on an attached non-directory target (run_foreach
hardlinks the file, slinky skips it); (b) to-hardlink-tree on an attached
directory target whose walk hits a traversal error (run_foreach's
`filter_map(|e| e.ok())` at src/main.rs:584-587 skips the error entry and
mirrors every readable one, while `create_hard_link_tree`'s `entry?` at
src/lib.rs:99 aborts the mirror there and reports a per-entry failure;
the last conjunct exhibits the disagreement on a concrete such entry);
(c) tidy when the target is already tidy (run_foreach is silent, slinky
reports "already tidy"); and (d) a nonexistent root (run_foreach walks
nothing and finishes cleanly, slinky aborts before the walk). -/
theorem drivers_equiv_outside_divergences (c : Cmd) (dryRun : Bool) (e : LinkEntry)
    (h1 : ¬(c = Cmd.toHardlinkTree ∧ e.isDangling = false ∧ e.targetIsDir = false))
    (h2 : ¬(c = Cmd.tidy ∧ tidy_path e.rawTarget = e.rawTarget))
    (h3 : ¬(c = Cmd.toHardlinkTree ∧ e.isDangling = false ∧ e.targetIsDir = true
        ∧ dryRun = false ∧ hasWalkErr e.targetWalk = true)) :
    foreachStep c dryRun e = slinkyStep (.shared c) dryRun e
      ∧ (∀ (f : Filters) (sc : SCmd) (dry : Bool) (es : List RawEntry),
          run_foreach f c dry false es = ⟨[], false⟩
            ∧ slinky_main f sc dry false es = ⟨[], true⟩)
      ∧ foreachStep .toHardlinkTree false
            ⟨false, false, true, ⟨false, []⟩, none, none, none,
              [some (["a"], .file), none, some (["b"], .file)]⟩
          ≠ slinkyStep (.shared .toHardlinkTree) false
            ⟨false, false, true, ⟨false, []⟩, none, none, none,
              [some (["a"], .file), none, some (["b"], .file)]⟩ := by
  refine ⟨?_, fun f sc dry es => ⟨rfl, rfl⟩, by decide⟩
  cases c with
  | print st => rfl
  | editTarget pok m r => rfl
  | toAbsolute => rfl
  | toRelative => rfl
  | toHardlink => rfl
  | replaceWithTarget => rfl
  | delete => rfl
  | exec => rfl
  | tidy =>
    by_cases hT : tidy_path e.rawTarget = e.rawTarget
    · exact absurd ⟨rfl, hT⟩ h2
    · simp [foreachStep, slinkyStep, hT]
  | toHardlinkTree =>
    by_cases hd : e.isDangling = true
    · simp [foreachStep, slinkyStep, hd]
    · have hd' : e.isDangling = false := by simpa using hd
      by_cases ht : e.targetIsDir = true
      · cases dryRun with
        | true => simp [foreachStep, slinkyStep, hd', ht]
        | false =>
          have herr : hasWalkErr e.targetWalk = false := by
            by_contra hE
            exact h3 ⟨rfl, hd', ht, rfl, by simpa using hE⟩
          simp [foreachStep, slinkyStep, hd', ht, herr,
            entriesBeforeErr_eq_okEntries herr]
      · exact absurd ⟨rfl, hd', by simpa using ht⟩ h1

theorem drivers_equiv_outside_divergences_witness :
    foreachStep .delete false
        ⟨false, false, false, ⟨false, []⟩, none, none, none, []⟩
      = slinkyStep (.shared .delete) false
          ⟨false, false, false, ⟨false, []⟩, none, none, none, []⟩ :=
  (drivers_equiv_outside_divergences .delete false
    ⟨false, false, false, ⟨false, []⟩, none, none, none, []⟩
    (by decide) (by decide) (by decide)).1

/-!
Tree mirror.

`create_hard_link_tree` and `create_symlink_tree` (src/lib.rs:95-139), in
their directory branch, walk the source tree with WalkDir and reproduce
it under `origin`.  The source is modelled by its WalkDir enumeration: a
list of (path relative to the source root, entry kind) pairs, covering
symlink-free source trees of plain directories and files.  The
destination filesystem at and below `origin` is an association list from
relative paths (`[]` is `origin` itself) to destination entry kinds.
`fs::canonicalize(entry.path())` is modelled for this symlink-free
setting: the canonical path of the entry at relative path `p` is the
canonical path of the source root extended by `p`.
-/

/-- Kind of one destination entry: a real directory, a hardlinked file,
or a symbolic link storing a target path. -/
inductive DKind
  | dir
  | file
  | link (target : RPath)
deriving DecidableEq, Repr

/-- The destination filesystem at and below `origin`. -/
abbrev Fs := List (List String × DKind)

/-- The entry stored at path `p`, if any. -/
def lookupFs : Fs → List String → Option DKind
  | [], _ => none
  | (q, k) :: fs, p => if q = p then some k else lookupFs fs p

/-- One level of `fs::create_dir_all`: an existing directory is kept, an
existing non-directory is an error, a missing entry is created. -/
def addDir (fs : Fs) (p : List String) : Except Unit Fs :=
  match lookupFs fs p with
  | some .dir => .ok fs
  | some _ => .error ()
  | none => .ok ((p, .dir) :: fs)

/-- Worker for `fs::create_dir_all`: create the chain of directories from
`sofar` down through the components of `rest`. -/
def mkdirAllGo (fs : Fs) (sofar : List String) : List String → Except Unit Fs
  | [] => addDir fs sofar
  | n :: rest =>
    match addDir fs sofar with
    | .error u => .error u
    | .ok fs1 => mkdirAllGo fs1 (sofar ++ [n]) rest

/-- `fs::create_dir_all(p)`: create `p` and every missing ancestor, from
the top down; fails if some ancestor exists as a non-directory. -/
def mkdirAll (fs : Fs) (p : List String) : Except Unit Fs :=
  mkdirAllGo fs [] p

/-- Creation of one destination leaf by `fs::hard_link`/`symlink`: fails
if anything already exists at `p` (EEXIST) or the parent directory is
missing (ENOENT). -/
def linkAt (fs : Fs) (p : List String) (k : DKind) : Except Unit Fs :=
  match lookupFs fs p with
  | some _ => .error ()
  | none =>
    match lookupFs fs p.dropLast with
    | some .dir => .ok ((p, k) :: fs)
    | _ => .error ()

/-- Which of the two mirror functions is running. -/
inductive LinkKind
  | hard
  | symbolic
deriving DecidableEq, Repr

/-- The canonical absolute path of the source entry at relative path `p`,
for a symlink-free source tree whose root canonicalizes to `r`. -/
def canonAt (r : RPath) (p : List String) : RPath :=
  ⟨r.absolute, r.comps ++ p.map Comp.normal⟩

/-- The destination leaf for one non-directory source entry:
`create_hard_link_tree` hardlinks the source file (src/lib.rs:108),
`create_symlink_tree` stores the canonicalized source path
(src/lib.rs:130-131). -/
def leafKind : LinkKind → RPath → List String → DKind
  | .hard, _, _ => .file
  | .symbolic, r, p => .link (canonAt r p)

/-- One iteration of the WalkDir loop of the mirror (src/lib.rs:98-110 and
120-133): the source root itself (`rel` empty) is skipped; a directory
entry is `create_dir_all`ed; a non-directory entry becomes the leaf. -/
def mirrorStep (kind : LinkKind) (r : RPath) (fs : Fs)
    (e : List String × EKind) : Except Unit Fs :=
  if e.1 = [] then .ok fs
  else
    match e.2 with
    | .dir => mkdirAll fs e.1
    | .file => linkAt fs e.1 (leafKind kind r e.1)

/-- The `for entry in WalkDir::new(target)` loop: each failing step
aborts the whole mirror via `?`. -/
def runMirror (kind : LinkKind) (r : RPath) :
    Fs → List (List String × EKind) → Except Unit Fs
  | fs, [] => .ok fs
  | fs, e :: es =>
    match mirrorStep kind r fs e with
    | .error u => .error u
    | .ok fs1 => runMirror kind r fs1 es

/-- The directory branch of the tree mirror: `fs::create_dir_all(origin)`
(src/lib.rs:97 resp. 119), then the walk of the source.  `pre` is
whatever already exists at and below `origin`. -/
def mirrorTree (kind : LinkKind) (r : RPath) (pre : Fs)
    (walk : List (List String × EKind)) : Except Unit Fs :=
  match addDir pre [] with
  | .error u => .error u
  | .ok fs => runMirror kind r fs walk

/-- `create_hard_link_tree` on a directory target (src/lib.rs:95-115). -/
def create_hard_link_tree (r : RPath) (pre : Fs)
    (walk : List (List String × EKind)) : Except Unit Fs :=
  mirrorTree .hard r pre walk

/-- `create_symlink_tree` on a directory target (src/lib.rs:117-139). -/
def create_symlink_tree (r : RPath) (pre : Fs)
    (walk : List (List String × EKind)) : Except Unit Fs :=
  mirrorTree .symbolic r pre walk

/-- Whether a destination entry is of the same kind as a source entry:
directories correspond to directories, non-directory source entries to
hardlinked files or symbolic links. -/
def kindMatches : EKind → DKind → Bool
  | .dir, .dir => true
  | .file, .file => true
  | .file, .link _ => true
  | _, _ => false

/-- Number of destination entries stored at path `p`. -/
def countAt (fs : Fs) (p : List String) : Nat :=
  fs.countP (fun d => decide (d.1 = p))

/-- Decidable statement of the MirrorPlan invariant: every source walk
entry has exactly one destination entry, of matching kind, at the same
relative path; and every destination entry apart from the root
corresponds to a source walk entry of matching kind. -/
def mirrorInvariant (walk : List (List String × EKind)) (fs : Fs) : Bool :=
  walk.all (fun e =>
    decide (e.1 = [])
      || (countAt fs e.1 == 1
          && (match lookupFs fs e.1 with
              | some dk => kindMatches e.2 dk
              | none => false)))
    && fs.all (fun d =>
      decide (d.1 = [])
        || walk.any (fun e => decide (e.1 = d.1) && kindMatches e.2 d.2))

/-- Well-formedness of a WalkDir enumeration of a real directory tree:
when an entry is yielded, its parent is the source root or a directory
entry yielded earlier (`dirsDone` accumulates those). -/
def parentsOk (dirsDone : List (List String)) :
    List (List String × EKind) → Bool
  | [] => true
  | (p, k) :: es =>
    (decide (p = []) || decide (p.dropLast = []) || decide (p.dropLast ∈ dirsDone))
      && parentsOk (if k = EKind.dir ∧ p ≠ [] then p :: dirsDone else dirsDone) es

theorem lookupFs_mem {fs : Fs} {p : List String} {k : DKind}
    (h : lookupFs fs p = some k) : (p, k) ∈ fs := by
  induction fs with
  | nil => simp [lookupFs] at h
  | cons e rest ih =>
    rcases e with ⟨q, kq⟩
    by_cases hq : q = p
    · subst hq
      simp [lookupFs] at h
      simp [h]
    · simp only [lookupFs, if_neg hq] at h
      exact List.mem_cons_of_mem _ (ih h)

theorem not_mem_keys_of_lookupFs_none {fs : Fs} {p : List String}
    (h : lookupFs fs p = none) : p ∉ fs.map Prod.fst := by
  induction fs with
  | nil => simp
  | cons e rest ih =>
    rcases e with ⟨q, kq⟩
    by_cases hq : q = p
    · subst hq; simp [lookupFs] at h
    · simp only [lookupFs, if_neg hq] at h
      simp only [List.map_cons, List.mem_cons]
      push_neg
      exact ⟨fun he => hq he.symm, ih h⟩

theorem lookupFs_cons_preserve {fs : Fs} {pq : List String} {kq : DKind}
    (hnew : lookupFs fs pq = none) {q : List String} {k : DKind}
    (h : lookupFs fs q = some k) : lookupFs ((pq, kq) :: fs) q = some k := by
  have hne : pq ≠ q := by
    intro he; subst he; rw [hnew] at h; exact Option.noConfusion h
  simp [lookupFs, hne, h]

theorem addDir_ok {fs fs1 : Fs} {p : List String} (h : addDir fs p = .ok fs1) :
    (lookupFs fs p = some DKind.dir ∧ fs1 = fs)
      ∨ (lookupFs fs p = none ∧ fs1 = (p, DKind.dir) :: fs) := by
  unfold addDir at h
  rcases hl : lookupFs fs p with _ | k
  · rw [hl] at h
    right
    simp at h
    exact ⟨rfl, h.symm⟩
  · rw [hl] at h
    cases k with
    | dir =>
      left
      simp at h
      exact ⟨rfl, h.symm⟩
    | file => simp at h
    | link t => simp at h

theorem linkAt_ok {fs fs1 : Fs} {p : List String} {k : DKind}
    (h : linkAt fs p k = .ok fs1) :
    lookupFs fs p = none ∧ lookupFs fs p.dropLast = some DKind.dir
      ∧ fs1 = (p, k) :: fs := by
  unfold linkAt at h
  rcases hl : lookupFs fs p with _ | k0
  · rw [hl] at h
    rcases hp : lookupFs fs p.dropLast with _ | kp
    · rw [hp] at h; simp at h
    · rw [hp] at h
      cases kp with
      | dir =>
        simp at h
        exact ⟨rfl, rfl, h.symm⟩
      | file => simp at h
      | link t => simp at h
  · rw [hl] at h; simp at h

theorem addDir_preserves {fs fs1 : Fs} {p : List String} (h : addDir fs p = .ok fs1)
    {q : List String} {k : DKind} (hq : lookupFs fs q = some k) :
    lookupFs fs1 q = some k := by
  rcases addDir_ok h with ⟨_, rfl⟩ | ⟨hn, rfl⟩
  · exact hq
  · exact lookupFs_cons_preserve hn hq

theorem mkdirAllGo_preserves :
    ∀ (rest sofar : List String) (fs fs1 : Fs),
      mkdirAllGo fs sofar rest = .ok fs1 →
      ∀ {q : List String} {k : DKind}, lookupFs fs q = some k →
        lookupFs fs1 q = some k := by
  intro rest
  induction rest with
  | nil => intro sofar fs fs1 h q k hq; exact addDir_preserves h hq
  | cons n rs ih =>
    intro sofar fs fs1 h q k hq
    unfold mkdirAllGo at h
    cases ha : addDir fs sofar with
    | error u => rw [ha] at h; simp at h
    | ok fsa =>
      rw [ha] at h
      exact ih _ _ _ h (addDir_preserves ha hq)

theorem mirrorStep_preserves {kind : LinkKind} {r : RPath} {fs fs1 : Fs}
    {e : List String × EKind} (h : mirrorStep kind r fs e = .ok fs1)
    {q : List String} {k : DKind} (hq : lookupFs fs q = some k) :
    lookupFs fs1 q = some k := by
  rcases e with ⟨p, ek⟩
  unfold mirrorStep at h
  by_cases hp : p = []
  · rw [if_pos hp] at h
    simp at h
    subst h
    exact hq
  · rw [if_neg hp] at h
    cases ek with
    | dir => exact mkdirAllGo_preserves p [] fs fs1 h hq
    | file =>
      rcases linkAt_ok h with ⟨hn, _, rfl⟩
      exact lookupFs_cons_preserve hn hq

theorem runMirror_preserves (kind : LinkKind) (r : RPath) :
    ∀ (rest : List (List String × EKind)) (fs fsF : Fs),
      runMirror kind r fs rest = .ok fsF →
      ∀ {q : List String} {k : DKind}, lookupFs fs q = some k →
        lookupFs fsF q = some k := by
  intro rest
  induction rest with
  | nil =>
    intro fs fsF h q k hq
    simp [runMirror] at h
    subst h
    exact hq
  | cons e es ih =>
    intro fs fsF h q k hq
    unfold runMirror at h
    cases hstep : mirrorStep kind r fs e with
    | error u => rw [hstep] at h; simp at h
    | ok fs1 =>
      rw [hstep] at h
      exact ih fs1 fsF h (mirrorStep_preserves hstep hq)

/-- Every non-root destination entry has its parent present as a
directory. -/
def parentClosed (fs : Fs) : Prop :=
  ∀ e ∈ fs, e.1 = [] ∨ lookupFs fs e.1.dropLast = some DKind.dir

/-- All the chain of paths from `sofar` down to (excluding)
`sofar ++ rest` exist as directories, so the corresponding
`create_dir_all` levels are no-ops. -/
def goNoop (fs : Fs) : List String → List String → Prop
  | _, [] => True
  | sofar, n :: rest => lookupFs fs sofar = some DKind.dir ∧ goNoop fs (sofar ++ [n]) rest

theorem goNoop_extend (fs : Fs) :
    ∀ (rest sofar : List String) (n : String),
      goNoop fs sofar rest → lookupFs fs (sofar ++ rest) = some DKind.dir →
      goNoop fs sofar (rest ++ [n]) := by
  intro rest
  induction rest with
  | nil =>
    intro sofar n _ hdir
    exact ⟨by simpa using hdir, trivial⟩
  | cons m rs ih =>
    intro sofar n hgo hdir
    obtain ⟨h1, h2⟩ := hgo
    refine ⟨h1, ih (sofar ++ [m]) n h2 ?_⟩
    simpa [List.append_assoc] using hdir

theorem goNoop_of_dir (fs : Fs) (hpc : parentClosed fs) :
    ∀ (n : Nat) (q : List String), q.length ≤ n →
      lookupFs fs q = some DKind.dir → goNoop fs [] q := by
  intro n
  induction n with
  | zero =>
    intro q hlen _
    have hq : q = [] := List.length_eq_zero.mp (Nat.le_zero.mp hlen)
    subst hq
    trivial
  | succ n ih =>
    intro q hlen hq
    rcases List.eq_nil_or_concat q with rfl | ⟨q0, a, rfl⟩
    · trivial
    · simp only [List.concat_eq_append] at hlen hq ⊢
      rcases hpc _ (lookupFs_mem hq) with h0 | hpar
      · simp at h0
      · have hpar' : lookupFs fs q0 = some DKind.dir := by
          simpa [List.dropLast_concat] using hpar
        have hq0len : q0.length ≤ n := by
          simp only [List.length_append, List.length_singleton] at hlen
          omega
        have hgo : goNoop fs [] q0 := ih q0 hq0len hpar'
        exact goNoop_extend fs q0 [] a hgo (by simpa using hpar')

theorem goNoop_parent {fs : Fs} (hpc : parentClosed fs) {p : List String}
    (hpar : lookupFs fs p.dropLast = some DKind.dir) (hp : p ≠ []) :
    goNoop fs [] p := by
  have hgo : goNoop fs [] p.dropLast :=
    goNoop_of_dir fs hpc p.dropLast.length p.dropLast le_rfl hpar
  have hx := goNoop_extend fs p.dropLast [] (p.getLast hp) hgo (by simpa using hpar)
  rw [List.dropLast_append_getLast hp] at hx
  exact hx

theorem go_noop_run (fs : Fs) :
    ∀ (rest sofar : List String), goNoop fs sofar rest →
      mkdirAllGo fs sofar rest = addDir fs (sofar ++ rest) := by
  intro rest
  induction rest with
  | nil => intro sofar _; simp [mkdirAllGo]
  | cons n rs ih =>
    intro sofar hgo
    obtain ⟨h1, h2⟩ := hgo
    have ha : addDir fs sofar = .ok fs := by
      unfold addDir
      rw [h1]
    unfold mkdirAllGo
    rw [ha]
    show mkdirAllGo fs (sofar ++ [n]) rs = addDir fs (sofar ++ n :: rs)
    rw [ih (sofar ++ [n]) h2]
    simp [List.append_assoc]

theorem countAt_cons (fs : Fs) (q : List String) (k : DKind) (p : List String) :
    countAt ((q, k) :: fs) p = countAt fs p + (if q = p then 1 else 0) := by
  simp [countAt, List.countP_cons]

theorem countAt_zero {fs : Fs} {p : List String} (h : p ∉ fs.map Prod.fst) :
    countAt fs p = 0 := by
  induction fs with
  | nil => rfl
  | cons e rest ih =>
    rcases e with ⟨q, kq⟩
    simp only [List.map_cons, List.mem_cons] at h
    push_neg at h
    rw [countAt_cons, if_neg (fun he => h.1 he.symm), ih h.2]

theorem countAt_one {fs : Fs} (hnd : (fs.map Prod.fst).Nodup) {p : List String}
    {k : DKind} (h : lookupFs fs p = some k) : countAt fs p = 1 := by
  induction fs with
  | nil => simp [lookupFs] at h
  | cons e rest ih =>
    rcases e with ⟨q, kq⟩
    rw [List.map_cons, List.nodup_cons] at hnd
    by_cases hq : q = p
    · subst hq
      rw [countAt_cons, if_pos rfl, countAt_zero hnd.1]
    · rw [countAt_cons, if_neg hq]
      simp only [lookupFs, if_neg hq] at h
      simpa using ih hnd.2 h

theorem kindMatches_leaf (kind : LinkKind) (r : RPath) (p : List String) :
    kindMatches EKind.file (leafKind kind r p) = true := by
  cases kind <;> rfl

/-- Invariant carried along the mirror walk: the destination has no
duplicate paths, contains the root as a directory, is closed under
parents, contains every directory in `dd` (the dirsDone accumulator of
`parentsOk`), every destination entry comes from a processed source
entry of matching kind, and every processed source entry is present in
the destination with matching kind. -/
structure MirrorInv (done : List (List String × EKind)) (dd : List (List String))
    (fs : Fs) : Prop where
  nodup : (fs.map Prod.fst).Nodup
  root : lookupFs fs [] = some DKind.dir
  closed : parentClosed fs
  ddDirs : ∀ q ∈ dd, lookupFs fs q = some DKind.dir
  fromSrc : ∀ e ∈ fs, e.1 = [] ∨ ∃ ek, (e.1, ek) ∈ done ∧ kindMatches ek e.2 = true
  covered : ∀ e ∈ done,
    e.1 = [] ∨ ∃ dk, lookupFs fs e.1 = some dk ∧ kindMatches e.2 dk = true

theorem MirrorInv.extendDone {done : List (List String × EKind)}
    {dd : List (List String)} {fs : Fs} (h : MirrorInv done dd fs)
    {p : List String} {ek : EKind}
    (hcov : p = [] ∨ ∃ dk, lookupFs fs p = some dk ∧ kindMatches ek dk = true) :
    MirrorInv (done ++ [(p, ek)]) dd fs := by
  refine ⟨h.nodup, h.root, h.closed, h.ddDirs, ?_, ?_⟩
  · intro e he
    rcases h.fromSrc e he with h0 | ⟨ek0, hm, hk⟩
    · exact Or.inl h0
    · exact Or.inr ⟨ek0, List.mem_append_left _ hm, hk⟩
  · intro e he
    rcases List.mem_append.mp he with hm | hm
    · exact h.covered e hm
    · rcases List.mem_singleton.mp hm with rfl
      exact hcov

theorem MirrorInv.extendDD {done : List (List String × EKind)}
    {dd : List (List String)} {fs : Fs} (h : MirrorInv done dd fs)
    {p : List String} (hdir : lookupFs fs p = some DKind.dir) :
    MirrorInv done (p :: dd) fs := by
  refine ⟨h.nodup, h.root, h.closed, ?_, h.fromSrc, h.covered⟩
  intro q hq
  rcases List.mem_cons.mp hq with rfl | hq
  · exact hdir
  · exact h.ddDirs q hq

theorem MirrorInv.insert {done : List (List String × EKind)}
    {dd : List (List String)} {fs : Fs} (h : MirrorInv done dd fs)
    {p : List String} {kd : DKind} {ek : EKind}
    (_hp : p ≠ []) (hnone : lookupFs fs p = none)
    (hpar : lookupFs fs p.dropLast = some DKind.dir)
    (hkm : kindMatches ek kd = true) :
    MirrorInv (done ++ [(p, ek)]) dd ((p, kd) :: fs) := by
  refine ⟨?_, ?_, ?_, ?_, ?_, ?_⟩
  · rw [List.map_cons, List.nodup_cons]
    exact ⟨not_mem_keys_of_lookupFs_none hnone, h.nodup⟩
  · exact lookupFs_cons_preserve hnone h.root
  · intro e he
    rcases List.mem_cons.mp he with rfl | he
    · exact Or.inr (lookupFs_cons_preserve hnone hpar)
    · rcases h.closed e he with h0 | h0
      · exact Or.inl h0
      · exact Or.inr (lookupFs_cons_preserve hnone h0)
  · exact fun q hq => lookupFs_cons_preserve hnone (h.ddDirs q hq)
  · intro e he
    rcases List.mem_cons.mp he with rfl | he
    · exact Or.inr ⟨ek, List.mem_append_right _ (List.mem_singleton.mpr rfl), hkm⟩
    · rcases h.fromSrc e he with h0 | ⟨ek0, hm, hk⟩
      · exact Or.inl h0
      · exact Or.inr ⟨ek0, List.mem_append_left _ hm, hk⟩
  · intro e he
    rcases List.mem_append.mp he with hm | hm
    · rcases h.covered e hm with h0 | ⟨dk, hdk, hk⟩
      · exact Or.inl h0
      · exact Or.inr ⟨dk, lookupFs_cons_preserve hnone hdk, hk⟩
    · rcases List.mem_singleton.mp hm with rfl
      refine Or.inr ⟨kd, ?_, hkm⟩
      simp [lookupFs]

theorem runMirror_inv (kind : LinkKind) (r : RPath) :
    ∀ (rest done : List (List String × EKind)) (dd : List (List String))
      (fs fsF : Fs),
      MirrorInv done dd fs → parentsOk dd rest = true →
      runMirror kind r fs rest = .ok fsF →
      ∃ dd2, MirrorInv (done ++ rest) dd2 fsF := by
  intro rest
  induction rest with
  | nil =>
    intro done dd fs fsF hinv _ hrun
    simp only [runMirror] at hrun
    simp at hrun
    subst hrun
    exact ⟨dd, by simpa using hinv⟩
  | cons e es ih =>
    rcases e with ⟨p, k⟩
    intro done dd fs fsF hinv hpok hrun
    simp only [parentsOk, Bool.and_eq_true, Bool.or_eq_true, decide_eq_true_eq]
      at hpok
    obtain ⟨hp1, hp2⟩ := hpok
    unfold runMirror at hrun
    cases hstep : mirrorStep kind r fs (p, k) with
    | error u => rw [hstep] at hrun; simp at hrun
    | ok fs1 =>
      rw [hstep] at hrun
      by_cases hp : p = []
      · have hfs1 : fs1 = fs := by
          unfold mirrorStep at hstep
          rw [if_pos hp] at hstep
          simpa using hstep.symm
        rw [hfs1] at hrun
        have hdd' : (if k = EKind.dir ∧ p ≠ [] then p :: dd else dd) = dd := by
          simp [hp]
        rw [hdd'] at hp2
        have hinv' : MirrorInv (done ++ [(p, k)]) dd fs :=
          hinv.extendDone (Or.inl hp)
        obtain ⟨dd2, hfin⟩ := ih (done ++ [(p, k)]) dd fs fsF hinv' hp2 hrun
        exact ⟨dd2, by simpa [List.append_assoc] using hfin⟩
      · have hpar : lookupFs fs p.dropLast = some DKind.dir := by
          rcases hp1 with (h0 | h0) | h0
          · exact absurd h0 hp
          · rw [h0]; exact hinv.root
          · exact hinv.ddDirs _ h0
        cases k with
        | dir =>
          have hstep' : mkdirAll fs p = .ok fs1 := by
            unfold mirrorStep at hstep
            rw [if_neg hp] at hstep
            exact hstep
          have hgo : goNoop fs [] p := goNoop_parent hinv.closed hpar hp
          have haddd : addDir fs p = .ok fs1 := by
            rw [mkdirAll, go_noop_run fs p [] hgo] at hstep'
            simpa using hstep'
          have hdd' :
              (if (EKind.dir : EKind) = EKind.dir ∧ p ≠ [] then p :: dd else dd)
                = p :: dd := by
            simp [hp]
          rw [hdd'] at hp2
          rcases addDir_ok haddd with ⟨hdir, hfs⟩ | ⟨hnone, hfs⟩
          · rw [hfs] at hrun
            have hinv' : MirrorInv (done ++ [(p, EKind.dir)]) (p :: dd) fs :=
              (hinv.extendDone (Or.inr ⟨DKind.dir, hdir, by rfl⟩)).extendDD hdir
            obtain ⟨dd2, hfin⟩ := ih _ _ _ fsF hinv' hp2 hrun
            exact ⟨dd2, by simpa [List.append_assoc] using hfin⟩
          · rw [hfs] at hrun
            have hinv' : MirrorInv (done ++ [(p, EKind.dir)]) (p :: dd)
                ((p, DKind.dir) :: fs) :=
              (hinv.insert hp hnone hpar
                (show kindMatches EKind.dir DKind.dir = true from rfl)).extendDD
                (by simp [lookupFs])
            obtain ⟨dd2, hfin⟩ := ih _ _ _ fsF hinv' hp2 hrun
            exact ⟨dd2, by simpa [List.append_assoc] using hfin⟩
        | file =>
          have hstep' : linkAt fs p (leafKind kind r p) = .ok fs1 := by
            unfold mirrorStep at hstep
            rw [if_neg hp] at hstep
            exact hstep
          rcases linkAt_ok hstep' with ⟨hnone, hpard, rfl⟩
          have hdd' :
              (if (EKind.file : EKind) = EKind.dir ∧ p ≠ [] then p :: dd else dd)
                = dd := by
            simp
          rw [hdd'] at hp2
          have hinv' : MirrorInv (done ++ [(p, EKind.file)]) dd
              ((p, leafKind kind r p) :: fs) :=
            hinv.insert hp hnone hpard (kindMatches_leaf kind r p)
          obtain ⟨dd2, hfin⟩ := ih _ _ _ fsF hinv' hp2 hrun
          exact ⟨dd2, by simpa [List.append_assoc] using hfin⟩

theorem mirrorInvariant_of_inv {walk : List (List String × EKind)}
    {dd : List (List String)} {fs : Fs} (h : MirrorInv walk dd fs) :
    mirrorInvariant walk fs = true := by
  rw [mirrorInvariant, Bool.and_eq_true, List.all_eq_true, List.all_eq_true]
  constructor
  · intro e he
    rcases h.covered e he with h0 | ⟨dk, hdk, hkm⟩
    · simp [h0]
    · simp only [Bool.or_eq_true, Bool.and_eq_true]
      right
      refine ⟨?_, ?_⟩
      · rw [countAt_one h.nodup hdk]
        rfl
      · rw [hdk]
        exact hkm
  · intro d hd
    rcases h.fromSrc d hd with h0 | ⟨ek, hmem, hkm⟩
    · simp [h0]
    · simp only [Bool.or_eq_true]
      right
      rw [List.any_eq_true]
      exact ⟨(d.1, ek), hmem, by simp [hkm]⟩

theorem mirrorInv_init : MirrorInv [] [] [([], DKind.dir)] := by
  refine ⟨by simp, rfl, ?_, ?_, ?_, ?_⟩
  · intro e he
    rcases List.mem_singleton.mp he with rfl
    exact Or.inl rfl
  · intro q hq
    simp at hq
  · intro e he
    rcases List.mem_singleton.mp he with rfl
    exact Or.inl rfl
  · intro e he
    simp at he

theorem mirrorTree_invariant (kind : LinkKind) (r : RPath)
    (walk : List (List String × EKind)) (fs : Fs)
    (hw : parentsOk [] walk = true) (h : mirrorTree kind r [] walk = .ok fs) :
    mirrorInvariant walk fs = true := by
  have he : mirrorTree kind r [] walk = runMirror kind r [([], DKind.dir)] walk :=
    rfl
  rw [he] at h
  obtain ⟨dd2, hinv⟩ :=
    runMirror_inv kind r walk [] [] [([], DKind.dir)] fs mirrorInv_init hw h
  exact mirrorInvariant_of_inv (by simpa using hinv)

/-- C5 as stated is false: `fs::create_dir_all(origin)` tolerates a
pre-existing destination directory (src/lib.rs:97), so a hardlink-tree
mirror into a destination that already holds an entry `b` completes
successfully and leaves `b` in place - a destination entry with no
corresponding entry under the source. -/
theorem mirror_extra_entry_cex :
    create_hard_link_tree ⟨true, [Comp.normal "s"]⟩
        [([], DKind.dir), (["b"], DKind.file)] [(["a"], EKind.file)]
      = .ok [(["a"], DKind.file), ([], DKind.dir), (["b"], DKind.file)]
    ∧ mirrorInvariant [(["a"], EKind.file)]
        [(["a"], DKind.file), ([], DKind.dir), (["b"], DKind.file)] = false :=
  ⟨rfl, rfl⟩

/-- C5 amended: provided the destination does not previously exist, after
`create_hard_link_tree` or `create_symlink_tree` on a directory source
completes successfully, every relative path reachable under the source
has exactly one corresponding destination entry of the same kind
(directory vs. non-directory), and no destination entry exists that does
not correspond to one under the source.  `parentsOk` states that `walk`
is a WalkDir enumeration of a real tree: each entry's parent is the
source root or an earlier directory entry. -/
theorem mirror_plan_invariant (r : RPath) (walk : List (List String × EKind))
    (fsh fss : Fs) (hw : parentsOk [] walk = true)
    (hh : create_hard_link_tree r [] walk = .ok fsh)
    (hs : create_symlink_tree r [] walk = .ok fss) :
    mirrorInvariant walk fsh = true ∧ mirrorInvariant walk fss = true :=
  ⟨mirrorTree_invariant .hard r walk fsh hw hh,
   mirrorTree_invariant .symbolic r walk fss hw hs⟩

theorem mirror_plan_invariant_witness :
    mirrorInvariant [(["d"], EKind.dir), (["d", "f"], EKind.file), (["g"], EKind.file)]
        [(["g"], DKind.file), (["d", "f"], DKind.file), (["d"], DKind.dir),
         ([], DKind.dir)] = true
      ∧ mirrorInvariant
          [(["d"], EKind.dir), (["d", "f"], EKind.file), (["g"], EKind.file)]
          [(["g"], DKind.link ⟨true, [Comp.normal "s", Comp.normal "g"]⟩),
           (["d", "f"], DKind.link
             ⟨true, [Comp.normal "s", Comp.normal "d", Comp.normal "f"]⟩),
           (["d"], DKind.dir), ([], DKind.dir)] = true :=
  mirror_plan_invariant ⟨true, [Comp.normal "s"]⟩
    [(["d"], EKind.dir), (["d", "f"], EKind.file), (["g"], EKind.file)]
    [(["g"], DKind.file), (["d", "f"], DKind.file), (["d"], DKind.dir),
     ([], DKind.dir)]
    [(["g"], DKind.link ⟨true, [Comp.normal "s", Comp.normal "g"]⟩),
     (["d", "f"], DKind.link
       ⟨true, [Comp.normal "s", Comp.normal "d", Comp.normal "f"]⟩),
     (["d"], DKind.dir), ([], DKind.dir)]
    rfl rfl rfl

theorem runMirror_file_sets (r : RPath) :
    ∀ (rest : List (List String × EKind)) (fs fsF : Fs),
      runMirror .symbolic r fs rest = .ok fsF →
      ∀ p : List String, (p, EKind.file) ∈ rest → p ≠ [] →
        lookupFs fsF p = some (DKind.link (canonAt r p)) := by
  intro rest
  induction rest with
  | nil =>
    intro fs fsF _ p hp _
    simp at hp
  | cons e es ih =>
    intro fs fsF h p hpmem hpne
    unfold runMirror at h
    cases hstep : mirrorStep .symbolic r fs e with
    | error u => rw [hstep] at h; simp at h
    | ok fs1 =>
      rw [hstep] at h
      rcases List.mem_cons.mp hpmem with he | he
      · rw [← he] at hstep
        simp only [mirrorStep] at hstep
        rw [if_neg hpne] at hstep
        rcases linkAt_ok hstep with ⟨hn, hpar, hfs⟩
        rw [hfs] at h
        have hl : lookupFs ((p, leafKind .symbolic r p) :: fs) p
            = some (leafKind .symbolic r p) := by simp [lookupFs]
        have hres := runMirror_preserves .symbolic r es _ fsF h hl
        simpa [leafKind] using hres
      · exact ih fs1 fsF h p he hpne

/-- C6: for every non-directory entry under the source, the symlink-mode
tree mirror creates a symbolic link whose stored target is the fully
resolved canonical path of that source entry (`fs::canonicalize` of the
source path, src/lib.rs:130-131), which is absolute whenever the
canonicalized source root is absolute (as `fs::canonicalize` guarantees);
hence resolving the mirrored link yields the source file's canonical
absolute path. -/
theorem symlink_tree_canonical_target (r : RPath) (pre : Fs)
    (walk : List (List String × EKind)) (fs : Fs)
    (habs : r.absolute = true)
    (hs : create_symlink_tree r pre walk = .ok fs) :
    ∀ p : List String, (p, EKind.file) ∈ walk → p ≠ [] →
      lookupFs fs p = some (DKind.link (canonAt r p))
        ∧ (canonAt r p).absolute = true := by
  intro p hp hpne
  unfold create_symlink_tree mirrorTree at hs
  cases ha : addDir pre [] with
  | error u => rw [ha] at hs; simp at hs
  | ok fs0 =>
    rw [ha] at hs
    exact ⟨runMirror_file_sets r walk fs0 fs hs p hp hpne,
      by simp [canonAt, habs]⟩

theorem symlink_tree_canonical_target_witness :
    lookupFs
        [(["g"], DKind.link ⟨true, [Comp.normal "s", Comp.normal "g"]⟩),
         (["d", "f"], DKind.link
           ⟨true, [Comp.normal "s", Comp.normal "d", Comp.normal "f"]⟩),
         (["d"], DKind.dir), ([], DKind.dir)] ["g"]
      = some (DKind.link (canonAt ⟨true, [Comp.normal "s"]⟩ ["g"]))
    ∧ (canonAt ⟨true, [Comp.normal "s"]⟩ ["g"]).absolute = true :=
  symlink_tree_canonical_target ⟨true, [Comp.normal "s"]⟩ []
    [(["d"], EKind.dir), (["d", "f"], EKind.file), (["g"], EKind.file)]
    [(["g"], DKind.link ⟨true, [Comp.normal "s", Comp.normal "g"]⟩),
     (["d", "f"], DKind.link
       ⟨true, [Comp.normal "s", Comp.normal "d", Comp.normal "f"]⟩),
     (["d"], DKind.dir), ([], DKind.dir)]
    rfl rfl ["g"] (by simp) (by simp)
